import Mathlib

/-!
Verification of the nockchain zkvm-jetpack arithmetic/hashing kernel.

Shallow embedding of the Rust sources under `crates/zkvm-jetpack/src`:
machine integers become `ℕ` with explicit modular reduction, Belt (the base
field, integers mod `P = 2^64 - 2^32 + 1`) is embedded as `ZMod P`, the cubic
extension Felt — whose low-level multiply/invert routines are external
primitives — is embedded as an abstract field, and fallible jet entry points
return `Except`-style results.
-/

namespace Nockchain

/-! ## Montgomery arithmetic (tip5_jets.rs)

Constants `P`, `R`, `RP`, `R_MOD_P`, `R2` live in `form::math::tip5` which is
outside the provided sources.  Modelled from the spec: radix `R = 2^64`,
modulus `P = 2^64 - 2^32 + 1`, `R_MOD_P = R mod P`, `R2 = R^2 mod P`
(spec §4.1: "montify(x) ... implemented as montiply(x, R² mod P)"),
`RP = R * P` (the precondition bound of `mont_reduction`). -/

def P : ℕ := 18446744069414584321

def R : ℕ := 18446744073709551616

def RP : ℕ := R * P

def R_MOD_P : ℕ := R % P

def R2 : ℕ := (R * R) % P

/-- `mont_reduction` from `tip5_jets.rs` (lines 155-185): computes
`x * R⁻¹ mod P` for `0 ≤ x < R*P` via REDC specialised to the shape of `P`.
The Rust routine first round-trips `x` through a 128-bit `BitSlice`, which is
the identity on the value; the arithmetic below is the rest of the body,
with `u128` subtraction `c - (x1 + f*P)` mirrored by truncated `ℕ`
subtraction (we prove it never underflows for in-range `x`). -/
def mont_reduction (x : ℕ) : ℕ :=
  let r1 : ℕ := R_MOD_P + 1
  let x1 := x / r1 % r1
  let x2 := x / R
  let x0 := x % r1
  let c := (x0 + x1) * r1
  let f := c / R
  let d := c - (x1 + f * P)
  if d ≤ x2 then x2 - d else x2 + P - d

/-- `montiply` from `tip5_jets.rs` (lines 125-130): Montgomery product
`a * b * R⁻¹ mod P`; the `based!` asserts (operands canonical) become
hypotheses of the theorems below. -/
def montiply (a b : ℕ) : ℕ := mont_reduction (a * b)

/-- `montify` from `tip5_jets.rs` (lines 113-116): lift into Montgomery
space, `x * R mod P`. -/
def montify (x : ℕ) : ℕ := montiply x R2

theorem redc_core (x x0 x1 x2 c f d : ℕ)
    (h0 : x0 = x % 4294967296) (h1 : x1 = x / 4294967296 % 4294967296)
    (h2 : x2 = x / 18446744073709551616)
    (hc : c = (x0 + x1) * 4294967296)
    (hf : f = c / 18446744073709551616)
    (hd : d = c - (x1 + f * 18446744069414584321))
    (hx : x < 340282366841710300967557013911933812736) :
    (if d ≤ x2 then x2 - d else x2 + 18446744069414584321 - d) <
        18446744069414584321 ∧
      (if d ≤ x2 then x2 - d else x2 + 18446744069414584321 - d) *
            18446744073709551616 % 18446744069414584321 =
        x % 18446744069414584321 := by
  have hsub : x1 + f * 18446744069414584321 ≤ c := by omega
  have hdlt : d < 18446744069414584321 := by omega
  have hdec : x = x2 * 18446744073709551616 + x1 * 4294967296 + x0 := by
    omega
  split
  · rename_i hle
    have e1 : (x2 - d) * 18446744073709551616 +
          (x0 * 4294967297 + x1 * 4294967296) * 18446744069414584321 =
        x + f * (18446744073709551616 * 18446744069414584321) := by
      omega
    exact ⟨by omega, by omega⟩
  · rename_i hgt
    have e2 : (x2 + 18446744069414584321 - d) * 18446744073709551616 +
          (x0 * 4294967297 + x1 * 4294967296) * 18446744069414584321 =
        x + (f + 1) * (18446744073709551616 * 18446744069414584321) := by
      omega
    exact ⟨by omega, by omega⟩

theorem mont_reduction_spec (x : ℕ) (hx : x < RP) :
    mont_reduction x < P ∧ mont_reduction x * R % P = x % P := by
  have hr1 : R_MOD_P + 1 = 4294967296 := by norm_num [R_MOD_P, R, P]
  have hrp : RP = 340282366841710300967557013911933812736 := by
    norm_num [RP, R, P]
  rw [hrp] at hx
  simp only [mont_reduction, hr1, R, P]
  exact redc_core x _ _ _ _ _ _ rfl rfl rfl rfl rfl rfl hx

theorem montiply_spec (a b : ℕ) (ha : a < P) (hb : b < P) :
    montiply a b < P ∧ montiply a b * R % P = a * b % P := by
  have hab : a * b < RP := by
    have h1 : a * b < P * P := by
      calc a * b ≤ a * P := Nat.mul_le_mul_left a (Nat.le_of_lt hb)
        _ < P * P := by
            apply Nat.mul_lt_mul_of_lt_of_le ha (Nat.le_refl P)
            simp [P]
    have h2 : P * P ≤ R * P := Nat.mul_le_mul_right P (by norm_num [P, R])
    exact lt_of_lt_of_le h1 (le_of_le_of_eq h2 rfl)
  exact mont_reduction_spec (a * b) hab

theorem R_MOD_P_lt : R_MOD_P < P := Nat.mod_lt R (by norm_num [P])

theorem R2_lt : R2 < P := Nat.mod_lt (R * R) (by norm_num [P])

/-- C1: Montgomery round trip — for every canonical `x < P`,
`mont_reduction (montiply (montify x) (R mod P))` returns exactly `x`. -/
theorem montgomery_roundtrip (x : ℕ) (hx : x < P) :
    mont_reduction (montiply (montify x) R_MOD_P) = x := by
  obtain ⟨h1lt, h1⟩ := montiply_spec x R2 hx R2_lt
  obtain ⟨h2lt, h2⟩ := montiply_spec (montify x) R_MOD_P h1lt R_MOD_P_lt
  obtain ⟨h3lt, h3⟩ :=
    mont_reduction_spec (montiply (montify x) R_MOD_P)
      (lt_of_lt_of_le h2lt (by norm_num [RP, R, P]))
  have c1 : montify x * R ≡ x * R2 [MOD P] := h1
  have c2 : montiply (montify x) R_MOD_P * R ≡ montify x * R_MOD_P [MOD P] :=
    h2
  have c3 : mont_reduction (montiply (montify x) R_MOD_P) * R ≡
      montiply (montify x) R_MOD_P [MOD P] := h3
  have key : mont_reduction (montiply (montify x) R_MOD_P) * (R * R * R) ≡
      x * (R * R * R) [MOD P] := by
    calc mont_reduction (montiply (montify x) R_MOD_P) * (R * R * R)
        = mont_reduction (montiply (montify x) R_MOD_P) * R * R * R := by
          ring
      _ ≡ montiply (montify x) R_MOD_P * R * R [MOD P] :=
          (c3.mul_right R).mul_right R
      _ ≡ montify x * R_MOD_P * R [MOD P] := c2.mul_right R
      _ = montify x * R * R_MOD_P := by ring
      _ ≡ x * R2 * R_MOD_P [MOD P] := c1.mul_right R_MOD_P
      _ = x * (R * R % P) * (R % P) := by rw [R2, R_MOD_P]
      _ ≡ x * (R * R) * R [MOD P] :=
          ((Nat.mod_modEq (R * R) P).mul_left x).mul (Nat.mod_modEq R P)
      _ = x * (R * R * R) := by ring
  have hco : Nat.Coprime (R * R * R) P := by decide
  have hfin := Nat.ModEq.cancel_right_of_coprime (c := R * R * R)
    (by simpa [Nat.Coprime, Nat.gcd_comm] using hco) key
  calc mont_reduction (montiply (montify x) R_MOD_P)
      = mont_reduction (montiply (montify x) R_MOD_P) % P :=
        (Nat.mod_eq_of_lt h3lt).symm
    _ = x % P := hfin
    _ = x := Nat.mod_eq_of_lt hx

/-- C1 witness: the round trip at the concrete canonical input `3`. -/
theorem montgomery_roundtrip_witness :
    3 < P ∧ mont_reduction (montiply (montify 3) R_MOD_P) = 3 :=
  ⟨by norm_num [P], montgomery_roundtrip 3 (by norm_num [P])⟩

/-! ## Tip5 sponge hash (tip5_jets.rs)

`STATE_SIZE`, `RATE`, `DIGEST_LENGTH` and the round function `permute` live
in `form::math::tip5`, outside the provided sources.  Modelled from the
spec (§4.5): 16 lanes, absorption rate 10, digest length 5; `permute` is a
given primitive, embedded as an arbitrary function parameter `perm` on the
16-lane state. -/

def STATE_SIZE : ℕ := 16

def RATE : ℕ := 10

def DIGEST_LENGTH : ℕ := 5

/-- The 10*1-padding step of `hash_varlen_jet` (tip5_jets.rs lines 58-64):
push `1`, then `RATE - len % RATE - 1` zeros. -/
def tip5_pad (input : List ℕ) : List ℕ :=
  input ++ 1 :: List.replicate (RATE - input.length % RATE - 1) 0

/-- `absorb_rate` from `tip5_jets.rs` (lines 93-101): overwrite the first
`RATE` lanes with the block, then permute.  The `assert_eq!(input.len(),
RATE)` becomes a side condition of the theorems. -/
def absorb_rate (perm : List ℕ → List ℕ) (sponge input : List ℕ) : List ℕ :=
  perm (input ++ sponge.drop RATE)

/-- The absorption loop of `hash_varlen_jet` (lines 73-82): split off a
`RATE`-sized block, absorb it, and continue with the rest while the counter
is positive. -/
def absorb_loop (perm : List ℕ → List ℕ) (cnt : ℕ) (sponge input : List ℕ) :
    List ℕ :=
  let sponge1 := absorb_rate perm sponge (input.take RATE)
  match cnt with
  | 0 => sponge1
  | c + 1 => absorb_loop perm c sponge1 (input.drop RATE)

/-- `hash_varlen_jet` from `tip5_jets.rs` (lines 50-91): pad, montify every
element, absorb `len/RATE + 1` blocks, read the first `DIGEST_LENGTH` lanes
back out of Montgomery space. -/
def hash_varlen (perm : List ℕ → List ℕ) (input : List ℕ) : List ℕ :=
  let q := input.length / RATE
  let sponge := absorb_loop perm q (List.replicate STATE_SIZE 0)
    ((tip5_pad input).map montify)
  (sponge.take DIGEST_LENGTH).map mont_reduction

/-- The list of consecutive `RATE`-sized blocks of a list. -/
def chunks (l : List ℕ) : List (List ℕ) :=
  if h : l = [] then [] else l.take RATE :: chunks (l.drop RATE)
termination_by l.length
decreasing_by
  simp only [List.length_drop]
  cases l with
  | nil => exact absurd rfl h
  | cons a t => simp [RATE]; omega

theorem chunks_nil : chunks [] = [] := by rw [chunks]; simp

theorem chunks_cons (l : List ℕ) (h : l ≠ []) :
    chunks l = l.take RATE :: chunks (l.drop RATE) := by
  rw [chunks]; simp [h]

theorem absorb_loop_eq_foldl (perm : List ℕ → List ℕ) :
    ∀ (q : ℕ) (sponge input : List ℕ), input.length = (q + 1) * RATE →
      absorb_loop perm q sponge input =
        (chunks input).foldl (absorb_rate perm) sponge := by
  intro q
  induction q with
  | zero =>
    intro sponge input hlen
    have hne : input ≠ [] := by
      intro h; rw [h] at hlen; simp [RATE] at hlen
    have hdrop : input.drop RATE = [] := by
      apply List.eq_nil_of_length_eq_zero
      simp [List.length_drop, hlen]
    rw [chunks_cons input hne, hdrop, chunks_nil]
    simp [absorb_loop]
  | succ c ih =>
    intro sponge input hlen
    have hne : input ≠ [] := by
      intro h; rw [h] at hlen; simp [RATE] at hlen
    rw [chunks_cons input hne]
    have hdlen : (input.drop RATE).length = (c + 1) * RATE := by
      simp only [List.length_drop, hlen]
      simp [RATE]; ring_nf; omega
    simp only [absorb_loop, List.foldl_cons]
    exact ih (absorb_rate perm sponge (input.take RATE)) (input.drop RATE)
      hdlen

theorem chunks_count (q : ℕ) :
    ∀ input : List ℕ, input.length = (q + 1) * RATE →
      (chunks input).length = q + 1 ∧
        ∀ b ∈ chunks input, b.length = RATE := by
  induction q with
  | zero =>
    intro input hlen
    have hne : input ≠ [] := by
      intro h; rw [h] at hlen; simp [RATE] at hlen
    have hdrop : input.drop RATE = [] := by
      apply List.eq_nil_of_length_eq_zero
      simp [List.length_drop, hlen]
    rw [chunks_cons input hne, hdrop, chunks_nil]
    constructor
    · simp
    · intro b hb
      simp only [List.mem_singleton] at hb
      subst hb
      simp only [List.length_take, hlen, RATE]
      omega
  | succ c ih =>
    intro input hlen
    have hne : input ≠ [] := by
      intro h; rw [h] at hlen; simp [RATE] at hlen
    have hdlen : (input.drop RATE).length = (c + 1) * RATE := by
      simp only [List.length_drop, hlen]
      simp [RATE]; ring_nf; omega
    obtain ⟨ihlen, ihmem⟩ := ih (input.drop RATE) hdlen
    rw [chunks_cons input hne]
    refine ⟨by simp [ihlen], ?_⟩
    intro b hb
    rcases List.mem_cons.mp hb with h | h
    · subst h
      simp only [List.length_take, hlen, RATE]
      omega
    · exact ihmem b h

theorem foldl_absorb_len (perm : List ℕ → List ℕ)
    (hperm : ∀ s : List ℕ, s.length = STATE_SIZE →
      (perm s).length = STATE_SIZE) :
    ∀ (blocks : List (List ℕ)) (sponge : List ℕ),
      sponge.length = STATE_SIZE → (∀ b ∈ blocks, b.length = RATE) →
      (blocks.foldl (absorb_rate perm) sponge).length = STATE_SIZE := by
  intro blocks
  induction blocks with
  | nil => intro sponge hs _; simpa using hs
  | cons b t ih =>
    intro sponge hs hb
    simp only [List.foldl_cons]
    apply ih
    · apply hperm
      simp only [absorb_rate] at *
      simp [List.length_append, List.length_drop, hs,
        hb b (List.mem_cons_self b t), STATE_SIZE, RATE]
    · intro b' hb'
      exact hb b' (List.mem_cons_of_mem b hb')

theorem tip5_pad_length (input : List ℕ) :
    (tip5_pad input).length = (input.length / RATE + 1) * RATE := by
  simp only [tip5_pad, List.length_append, List.length_cons,
    List.length_replicate, RATE]
  omega

/-- C2: `hash_varlen` pads with `1` followed by `RATE - len % RATE - 1`
zeros to a positive multiple `(len/RATE + 1) * RATE` of the rate, absorbs
exactly `len/RATE + 1` consecutive `RATE`-sized blocks (permuting after
each, as a left fold of `absorb_rate` over the blocks) and returns a
`DIGEST_LENGTH`-element digest; for the input `[1,2,3]` the padded input
is exactly `RATE = 10` elements and exactly one block is absorbed. -/
theorem hash_varlen_pad_absorb (perm : List ℕ → List ℕ)
    (hperm : ∀ s : List ℕ, s.length = STATE_SIZE →
      (perm s).length = STATE_SIZE)
    (input : List ℕ) (hbased : ∀ b ∈ input, b < P) :
    (tip5_pad input).length = (input.length / RATE + 1) * RATE ∧
    0 < (tip5_pad input).length ∧
    (chunks ((tip5_pad input).map montify)).length =
      input.length / RATE + 1 ∧
    (∀ b ∈ chunks ((tip5_pad input).map montify), b.length = RATE) ∧
    hash_varlen perm input =
      (((chunks ((tip5_pad input).map montify)).foldl (absorb_rate perm)
          (List.replicate STATE_SIZE 0)).take DIGEST_LENGTH).map
        mont_reduction ∧
    (hash_varlen perm input).length = DIGEST_LENGTH ∧
    (tip5_pad [1, 2, 3]).length = RATE ∧
    (chunks ((tip5_pad [1, 2, 3]).map montify)).length = 1 := by
  have hpadlen := tip5_pad_length input
  have hmontlen : ((tip5_pad input).map montify).length =
      (input.length / RATE + 1) * RATE := by
    simpa using hpadlen
  obtain ⟨hcnt, hblk⟩ := chunks_count (input.length / RATE) _ hmontlen
  have heq : hash_varlen perm input =
      (((chunks ((tip5_pad input).map montify)).foldl (absorb_rate perm)
          (List.replicate STATE_SIZE 0)).take DIGEST_LENGTH).map
        mont_reduction := by
    simp only [hash_varlen]
    rw [absorb_loop_eq_foldl perm (input.length / RATE) _ _ hmontlen]
  refine ⟨hpadlen, ?_, hcnt, hblk, heq, ?_, ?_, ?_⟩
  · rw [hpadlen]; simp [RATE]
  · rw [heq]
    have hfl := foldl_absorb_len perm hperm
      (chunks ((tip5_pad input).map montify))
      (List.replicate STATE_SIZE 0) (by simp) hblk
    rw [List.length_map, List.length_take, hfl]
    decide
  · rw [tip5_pad_length]; simp [RATE]
  · obtain ⟨h3, _⟩ := chunks_count 0 ((tip5_pad [1, 2, 3]).map montify)
      (by simpa using tip5_pad_length [1, 2, 3])
    simpa using h3

/-- C2 witness: the padding/absorption facts at the concrete input
`[1,2,3]` with the identity permutation. -/
theorem hash_varlen_pad_absorb_witness :
    (tip5_pad [1, 2, 3]).length = (([1, 2, 3] : List ℕ).length / RATE + 1)
        * RATE ∧
    (hash_varlen id [1, 2, 3]).length = DIGEST_LENGTH := by
  obtain ⟨h1, _, _, _, _, h6, _, _⟩ :=
    hash_varlen_pad_absorb id (fun s hs => hs) [1, 2, 3]
      (by intro b hb; fin_cases hb <;> norm_num [P])
  exact ⟨h1, h6⟩

/-! ## Belt polynomials (bp_jets.rs)

The base field Belt is "unsigned integer modulo P, stored value always
canonical" (spec §3); its arithmetic primitives (`badd`, `bmul`, `bpow`,
and the `form::math::bpoly` routines) are outside the provided sources.
Modelled from the spec: Belt is `ZMod P` and the polynomial routines are
the spec-described operations on coefficient lists. -/

abbrev Belt : Type := ZMod P

/-- Modelled from the spec: `bpadd` (§4.2) — shorter operand implicitly
zero-padded, result length = max of the two input lengths. -/
def bpadd (p q : List Belt) : List Belt :=
  (List.range (max p.length q.length)).map fun i => p.getD i 0 + q.getD i 0

/-- Modelled from the spec: `bpscal` (§4.2) — multiply every coefficient
by a scalar, length preserved. -/
def bpscal (c : Belt) (p : List Belt) : List Belt :=
  p.map fun a => c * a

/-- Modelled from the spec: `BPolySlice::is_zero` — the canonical zero
polynomial is the 1-element sequence `[0]` (§3). -/
def bp_is_zero (p : List Belt) : Bool :=
  p == [0]

/-- `bpmul_jet` from `bp_jets.rs` (lines 116-138): the result length is `1`
when either operand is the canonical zero polynomial and the usize
expression `len p + len q - 1` otherwise.  That subtraction has no
emptiness guard, so for two empty operands (neither of which is the
canonical zero `[0]`) it underflows — a panic/abort, never a result —
modelled as `none`.  In the remaining cases `bpmul` (outside src/,
modelled from the spec §4.2) fills the buffer with the full
convolution. -/
def bp_mul (p q : List Belt) : Option (List Belt) :=
  if bp_is_zero p ∨ bp_is_zero q then
    some ((List.range 1).map fun n =>
      ∑ i ∈ Finset.range p.length, ∑ j ∈ Finset.range q.length,
        if i + j = n then p.getD i 0 * q.getD j 0 else 0)
  else if p.length + q.length = 0 then none
  else
    some ((List.range (p.length + q.length - 1)).map fun n =>
      ∑ i ∈ Finset.range p.length, ∑ j ∈ Finset.range q.length,
        if i + j = n then p.getD i 0 * q.getD j 0 else 0)

/-! ## Felt polynomials (fp_jets.rs)

Modelled from the spec: Felt is the cubic extension field of Belt; its
multiply/invert routines (`form::math::fext`) are given primitives outside
the provided sources, so Felt is embedded as an abstract field `F` and the
polynomial algorithms of `fp_jets.rs` are stated over it. -/

section FeltPoly

variable {F : Type} [Field F]

/-- `fp_mul_jet` from `fp_jets.rs` (lines 131-157) composed with
`fpmul_poly` (lines 464-486): the result length is `0` when either operand
is empty (no zero-polynomial special case) and `len p + len q - 1`
otherwise; the buffer is filled with the full convolution
`res[i+j] += p[i]*q[j]`. -/
def fp_mul (p q : List F) : List F :=
  let res_len := if p.length = 0 ∨ q.length = 0 then 0
    else p.length + q.length - 1
  (List.range res_len).map fun n =>
    ∑ i ∈ Finset.range p.length, ∑ j ∈ Finset.range q.length,
      if i + j = n then p.getD i 0 * q.getD j 0 else 0

end FeltPoly

theorem getD_range_map {A : Type} (f : ℕ → A) (d : A) {m k : ℕ}
    (hk : k < m) : ((List.range m).map f).getD k d = f k := by
  have h1 : k < ((List.range m).map f).length := by simpa
  rw [List.getD_eq_getElem _ d h1]
  simp

instance fact_prime_17 : Fact (Nat.Prime 17) := ⟨by norm_num⟩

/-- C5 counterexample: over Felt, multiplying the canonical zero polynomial
`[0]` by `[3,4]` yields the 2-element all-zero polynomial, not the
1-element zero polynomial claimed. -/
theorem fp_mul_zero_counterexample :
    fp_mul (F := ZMod 17) [0] [3, 4] = [0, 0] ∧
      ([0, 0] : List (ZMod 17)) ≠ [0] := by
  constructor
  · decide
  · decide

/-- C5 amended: the zero-polynomial special case (result `[0]`) holds for
Belt polynomial multiplication (`bpmul_jet`); in the non-zero branch the
usize length `len p + len q - 1` underflows for two empty operands (an
abort, never a result) and otherwise the result is the full convolution of
that length.  Felt polynomial multiplication (`fp_mul_jet`) has no zero
special case — it returns the empty list when either operand is empty and
otherwise the full convolution of length `len p + len q - 1` (so a `[0]`
operand yields an all-zero result of that length). -/
theorem mul_zero_case_amended :
    (∀ p q : List Belt, (bp_is_zero p ∨ bp_is_zero q) →
      bp_mul p q = some [0]) ∧
    (∀ p q : List Belt, ¬(bp_is_zero p ∨ bp_is_zero q) →
      p.length + q.length = 0 → bp_mul p q = none) ∧
    (∀ p q : List Belt, ¬(bp_is_zero p ∨ bp_is_zero q) →
      p.length + q.length ≠ 0 →
      ∃ r, bp_mul p q = some r ∧
        r.length = p.length + q.length - 1 ∧
        ∀ n, n < p.length + q.length - 1 → r.getD n 0 =
          ∑ i ∈ Finset.range p.length, ∑ j ∈ Finset.range q.length,
            if i + j = n then p.getD i 0 * q.getD j 0 else 0) ∧
    (∀ (F : Type) [Field F] (p q : List F),
      (p.length = 0 ∨ q.length = 0) → fp_mul p q = []) ∧
    (∀ (F : Type) [Field F] (p q : List F),
      p.length ≠ 0 → q.length ≠ 0 →
      (fp_mul p q).length = p.length + q.length - 1 ∧
      ∀ n, n < p.length + q.length - 1 → (fp_mul p q).getD n 0 =
        ∑ i ∈ Finset.range p.length, ∑ j ∈ Finset.range q.length,
          if i + j = n then p.getD i 0 * q.getD j 0 else 0) := by
  refine ⟨?_, ?_, ?_, ?_, ?_⟩
  · intro p q h
    have hr1 : List.range 1 = [0] := rfl
    rcases h with hp | hq
    · have hp' : p = [0] := by simpa [bp_is_zero] using hp
      subst hp'
      simp only [bp_mul]
      rw [if_pos (Or.inl hp), hr1]
      simp [Finset.sum_range_one]
    · have hq' : q = [0] := by simpa [bp_is_zero] using hq
      subst hq'
      simp only [bp_mul]
      rw [if_pos (Or.inr hq), hr1]
      simp [Finset.sum_range_one]
  · intro p q h h0
    simp only [bp_mul]
    rw [if_neg h, if_pos h0]
  · intro p q h h0
    refine ⟨(List.range (p.length + q.length - 1)).map fun n =>
      ∑ i ∈ Finset.range p.length, ∑ j ∈ Finset.range q.length,
        if i + j = n then p.getD i 0 * q.getD j 0 else 0, ?_, ?_, ?_⟩
    · simp only [bp_mul]
      rw [if_neg h, if_neg h0]
    · simp
    · intro n hn
      exact getD_range_map _ _ hn
  · intro F _ p q h
    simp [fp_mul, if_pos h]
  · intro F _ p q hp hq
    have h : ¬(p.length = 0 ∨ q.length = 0) := by tauto
    constructor
    · simp [fp_mul, if_neg h]
    · intro n hn
      have h1 : (if p.length = 0 ∨ q.length = 0 then 0
          else p.length + q.length - 1) = p.length + q.length - 1 :=
        if_neg h
      simp only [fp_mul, h1]
      exact getD_range_map _ _ hn

/-- C5 witness: the amended statement evaluated at concrete inputs — the
Belt zero case, the aborting both-empty Belt case, a Belt non-zero
product, and a Felt product. -/
theorem mul_zero_case_amended_witness :
    bp_mul [0] [3, 4] = some [0] ∧
      bp_mul ([] : List Belt) [] = none ∧
      (∃ r, bp_mul [1, 1] [1, 1] = some r ∧ r.length = 3) ∧
      (fp_mul (F := ZMod 17) [1, 1] [1, 1]).length = 3 := by
  refine ⟨mul_zero_case_amended.1 [0] [3, 4] (by decide),
    mul_zero_case_amended.2.1 [] [] (by decide) rfl, ?_, ?_⟩
  · obtain ⟨r, hr, hl, _⟩ := mul_zero_case_amended.2.2.1 [1, 1] [1, 1]
      (by decide) (by decide)
    exact ⟨r, hr, hl⟩
  · exact ((mul_zero_case_amended.2.2.2.2 (ZMod 17) [1, 1] [1, 1]
      (by decide) (by decide)).1).trans rfl

/-! ## Constraint substitution evaluator (mega_jets.rs)

`brek` and `MegaTyp` (`form::mega`), the Belt polynomial primitives
(`bp_hadamard`, `bpscal`, `bpadd`, `bpow`) and the map type are outside the
provided sources.  Modelled from the spec (§4.6, §9): factors are a closed
five-variant tagged union with an id and an exponent; `bpow` is modular
exponentiation; `bp_hadamard` writes the index-wise product into the
caller's buffer (in `mp_substitute_mega_jet` that buffer has length
`min (len acc) (len slice)`, C10's truncation); the challenge/commitment
maps become functions to `Option`. -/

inductive MegaTyp : Type
  | Var | Rnd | Dyn | Con | Com
deriving DecidableEq

/-- One tagged factor, the result of `brek` on a packed term entry. -/
structure MegaFactor : Type where
  typ : MegaTyp
  idx : ℕ
  exp : ℕ
deriving DecidableEq

/-- The external value sources of `mp_substitute_mega_jet`: the flat
trace-evaluation buffer with its height, the challenge map, the dynamic
array, and the commitment map. -/
structure MegaEnv : Type where
  trace_evals : List Belt
  height : ℕ
  chal_map : ℕ → Option Belt
  dyns : List Belt
  com_map : ℕ → Option (List Belt)

/-- One `bp_hadamard` call of the jet: the result buffer has length `m`
(allocated as `min (len acc) (len slice)` before the exponent loop) and
holds the index-wise product. -/
def bp_hadamard_trunc (m : ℕ) (a s : List Belt) : List Belt :=
  (List.range m).map fun j => a.getD j 0 * s.getD j 0

/-- The `for _ in 0..exp` repeated-Hadamard loop of the `Var`/`Com` arms
(mega_jets.rs lines 93-97 and 135-139). -/
def had_pow (s : List Belt) (m : ℕ) : ℕ → List Belt → List Belt
  | 0, a => a
  | e + 1, a => had_pow s m e (bp_hadamard_trunc m a s)

/-- One factor application of `mp_substitute_mega_jet` (lines 79-141):
the five-way match on the factor tag. -/
def apply_factor (env : MegaEnv) (acc : List Belt) (f : MegaFactor) :
    Except Unit (List Belt) :=
  match f.typ with
  | .Var =>
    let plen := 4 * env.height
    let start := f.idx * plen
    if start + plen > env.trace_evals.length then .error ()
    else
      let slice := (env.trace_evals.drop start).take plen
      .ok (had_pow slice (min acc.length slice.length) f.exp acc)
  | .Rnd =>
    match env.chal_map f.idx with
    | none => .error ()
    | some rnd => .ok (bpscal (rnd ^ f.exp) acc)
  | .Dyn =>
    if f.idx ≥ env.dyns.length then .error ()
    else .ok (bpscal (env.dyns.getD f.idx 0 ^ f.exp) acc)
  | .Con => .ok acc
  | .Com =>
    match env.com_map f.idx with
    | none => .error ()
    | some cs => .ok (had_pow cs (min acc.length cs.length) f.exp acc)

/-- `mp_substitute_mega_jet` (lines 54-164): fold the (term, coefficient)
pairs, skipping zero coefficients, running every factor of a term on an
all-ones accumulator of the term's arity, scaling by the coefficient and
adding into the running total. -/
def mp_substitute (env : MegaEnv) (terms : List (List MegaFactor × Belt)) :
    Except Unit (List Belt) :=
  terms.foldlM
    (fun acc kv =>
      if kv.2 = 0 then .ok acc
      else do
        let inner ← kv.1.foldlM (apply_factor env)
          (List.replicate kv.1.length 1)
        .ok (bpadd acc (bpscal kv.2 inner)))
    [0]

/-- The lookup-failure conditions of §4.6: missing challenge id, missing
commitment id, out-of-range dynamic index, or a trace slice extending past
the end of the trace-evaluation buffer. -/
def factor_fails (env : MegaEnv) (f : MegaFactor) : Bool :=
  match f.typ with
  | .Var => decide
      (f.idx * (4 * env.height) + 4 * env.height > env.trace_evals.length)
  | .Rnd => (env.chal_map f.idx).isNone
  | .Dyn => decide (f.idx ≥ env.dyns.length)
  | .Con => false
  | .Com => (env.com_map f.idx).isNone

theorem apply_factor_of_fails (env : MegaEnv) (acc : List Belt)
    (f : MegaFactor) (h : factor_fails env f = true) :
    apply_factor env acc f = .error () := by
  obtain ⟨typ, idx, exp⟩ := f
  cases typ
  · simp only [factor_fails, decide_eq_true_eq] at h
    simp [apply_factor, h]
  · simp only [factor_fails, Option.isNone_iff_eq_none] at h
    simp [apply_factor, h]
  · simp only [factor_fails, decide_eq_true_eq] at h
    simp [apply_factor, h]
  · simp [factor_fails] at h
  · simp only [factor_fails, Option.isNone_iff_eq_none] at h
    simp [apply_factor, h]

theorem factor_fold_error (env : MegaEnv) :
    ∀ (fs : List MegaFactor) (acc : List Belt),
      (∃ f ∈ fs, factor_fails env f = true) →
      fs.foldlM (apply_factor env) acc = .error () := by
  intro fs
  induction fs with
  | nil => intro acc h; simp at h
  | cons g t ih =>
    intro acc h
    by_cases hg : factor_fails env g = true
    · simp only [List.foldlM_cons, apply_factor_of_fails env acc g hg]
      rfl
    · obtain ⟨f, hf, hfail⟩ := h
      rcases List.mem_cons.mp hf with rfl | hft
      · exact absurd hfail hg
      · rcases hok : apply_factor env acc g with e | r
        · cases e
          simp only [List.foldlM_cons, hok]
          rfl
        · simp only [List.foldlM_cons, hok]
          exact ih r ⟨f, hft, hfail⟩

theorem subst_fold_error (env : MegaEnv) :
    ∀ (terms : List (List MegaFactor × Belt)) (acc : List Belt),
      (∃ kv ∈ terms, kv.2 ≠ 0 ∧ ∃ f ∈ kv.1, factor_fails env f = true) →
      terms.foldlM
        (fun acc kv =>
          if kv.2 = 0 then .ok acc
          else do
            let inner ← kv.1.foldlM (apply_factor env)
              (List.replicate kv.1.length 1)
            .ok (bpadd acc (bpscal kv.2 inner)))
        acc = .error () := by
  intro terms
  induction terms with
  | nil => intro acc h; simp at h
  | cons kv t ih =>
    intro acc h
    obtain ⟨kv', hkv', hv', f', hf', hfail'⟩ := h
    rcases List.mem_cons.mp hkv' with rfl | hmem
    · have hinner := factor_fold_error env kv'.1
        (List.replicate kv'.1.length 1) ⟨f', hf', hfail'⟩
      simp only [List.foldlM_cons, if_neg hv', hinner]
      rfl
    · rcases hstep : (if kv.2 = 0 then (.ok acc : Except Unit (List Belt))
          else do
            let inner ← kv.1.foldlM (apply_factor env)
              (List.replicate kv.1.length 1)
            .ok (bpadd acc (bpscal kv.2 inner))) with e | r
      · cases e
        simp only [List.foldlM_cons, hstep]
        rfl
      · simp only [List.foldlM_cons, hstep]
        exact ih r ⟨kv', hmem, hv', f', hf', hfail'⟩

/-- C6: if any term of the substitution-evaluator input has a nonzero
coefficient and one of its factors has a failing lookup (missing challenge
id, missing commitment id, out-of-range dynamic index, or a trace slice
past the end of the trace-evaluation buffer), the evaluator returns an
error value. -/
theorem mp_substitute_lookup_failure (env : MegaEnv)
    (terms : List (List MegaFactor × Belt)) (k : List MegaFactor) (v : Belt)
    (f : MegaFactor) (hkv : (k, v) ∈ terms) (hv : v ≠ 0) (hf : f ∈ k)
    (hfail : factor_fails env f = true) :
    mp_substitute env terms = .error () :=
  subst_fold_error env terms [0] ⟨(k, v), hkv, hv, f, hf, hfail⟩

/-- C6 witness: a one-term input whose single factor references challenge
id 0 in an empty challenge map errors out. -/
theorem mp_substitute_lookup_failure_witness :
    mp_substitute ⟨[], 0, fun _ => none, [], fun _ => none⟩
      [([⟨.Rnd, 0, 1⟩], 1)] = .error () :=
  mp_substitute_lookup_failure ⟨[], 0, fun _ => none, [], fun _ => none⟩
    [([⟨.Rnd, 0, 1⟩], 1)] [⟨.Rnd, 0, 1⟩] 1 ⟨.Rnd, 0, 1⟩
    (List.mem_singleton.mpr rfl) (by decide)
    (List.mem_singleton.mpr rfl) (by decide)

/-- C7 counterexample: a single term with an empty factor list and
coefficient `1` evaluates to `[0]` — the all-ones accumulator of the
term's arity is the empty polynomial when the arity is 0, so the
coefficient is lost — not to `[1]` as claimed. -/
theorem mp_substitute_empty_term_counterexample :
    mp_substitute ⟨[], 0, fun _ => none, [], fun _ => none⟩ [([], 1)] =
        .ok [0] ∧
      (Except.ok [0] : Except Unit (List Belt)) ≠ .ok [1] := by
  constructor
  · rfl
  · intro h
    exact absurd (congrArg (fun x => x.toOption.getD []) h) (by decide)

/-- C7 amended: a single term with an empty factor list and coefficient `c`
evaluates to the one-element zero polynomial `[0]` for every `c` (equal to
`[c]` only when `c = 0`): the inner accumulator is the all-ones polynomial
of the term's arity, which is empty for an empty factor list. -/
theorem mp_substitute_empty_term (env : MegaEnv) (c : Belt) :
    mp_substitute env [([], c)] = .ok [0] := by
  by_cases hc : c = 0
  · simp [mp_substitute, hc]
  · simp only [mp_substitute, List.foldlM_cons, List.foldlM_nil,
      if_neg hc, List.length_nil, List.replicate_zero]
    have hscal : bpscal c [] = [] := rfl
    have hadd : bpadd [0] [] = [0] := by
      simp [bpadd]
    simp [hscal, hadd]

theorem had_pow_eq_iterate (s : List Belt) (e : ℕ) :
    ∀ acc : List Belt,
      had_pow s (min acc.length s.length) e acc =
        (fun a => List.zipWith (· * ·) a s)^[e] acc := by
  induction e with
  | zero => intro acc; rfl
  | succ e ih =>
    intro acc
    have htr : bp_hadamard_trunc (min acc.length s.length) acc s =
        List.zipWith (· * ·) acc s := by
      apply List.ext_getElem
      · simp [bp_hadamard_trunc]
      · intro i h1 h2
        have hi : i < min acc.length s.length := by
          simpa using h2
        simp [bp_hadamard_trunc, List.getElem_zipWith,
          List.getD_eq_getElem, Nat.lt_of_lt_of_le hi (Nat.min_le_left _ _),
          Nat.lt_of_lt_of_le hi (Nat.min_le_right _ _)]
    have hlen : min acc.length s.length =
        min (List.zipWith (· * ·) acc s).length s.length := by
      simp only [List.length_zipWith]
      omega
    calc had_pow s (min acc.length s.length) (e + 1) acc
        = had_pow s (min acc.length s.length) e
            (bp_hadamard_trunc (min acc.length s.length) acc s) := rfl
      _ = had_pow s (min (List.zipWith (· * ·) acc s).length s.length) e
            (List.zipWith (· * ·) acc s) := by rw [htr, hlen]
      _ = (fun a => List.zipWith (· * ·) a s)^[e]
            (List.zipWith (· * ·) acc s) := ih _
      _ = (fun a => List.zipWith (· * ·) a s)^[e + 1] acc := by
          rw [Function.iterate_succ_apply]

/-- C10: with successful lookups, a `Var` or `Com` factor with exponent `e`
replaces the per-term accumulator by the `e`-fold repeated Hadamard product
against the looked-up slice (`List.zipWith (· * ·)` truncates each step to
the minimum of the current accumulator length and the slice length); any
factor with exponent `0`, and any `Con` factor, leaves the accumulator
unchanged. -/
theorem apply_factor_accumulator (env : MegaEnv) (acc : List Belt)
    (idx e : ℕ) :
    (idx * (4 * env.height) + 4 * env.height ≤ env.trace_evals.length →
      apply_factor env acc ⟨.Var, idx, e⟩ =
        .ok ((fun a => List.zipWith (· * ·) a
          ((env.trace_evals.drop (idx * (4 * env.height))).take
            (4 * env.height)))^[e] acc)) ∧
    (∀ cs, env.com_map idx = some cs →
      apply_factor env acc ⟨.Com, idx, e⟩ =
        .ok ((fun a => List.zipWith (· * ·) a cs)^[e] acc)) ∧
    (idx * (4 * env.height) + 4 * env.height ≤ env.trace_evals.length →
      apply_factor env acc ⟨.Var, idx, 0⟩ = .ok acc) ∧
    (∀ r, env.chal_map idx = some r →
      apply_factor env acc ⟨.Rnd, idx, 0⟩ = .ok acc) ∧
    (idx < env.dyns.length →
      apply_factor env acc ⟨.Dyn, idx, 0⟩ = .ok acc) ∧
    (∀ cs, env.com_map idx = some cs →
      apply_factor env acc ⟨.Com, idx, 0⟩ = .ok acc) ∧
    apply_factor env acc ⟨.Con, idx, e⟩ = .ok acc := by
  refine ⟨?_, ?_, ?_, ?_, ?_, ?_, rfl⟩
  · intro hle
    simp only [apply_factor, gt_iff_lt, if_neg (Nat.not_lt.mpr hle)]
    rw [had_pow_eq_iterate]
  · intro cs hcs
    simp only [apply_factor, hcs]
    rw [had_pow_eq_iterate]
  · intro hle
    simp only [apply_factor, gt_iff_lt, if_neg (Nat.not_lt.mpr hle)]
    rfl
  · intro r hr
    simp only [apply_factor, hr, pow_zero]
    have : bpscal 1 acc = acc := by
      simp [bpscal]
    rw [this]
  · intro hlt
    simp only [apply_factor, ge_iff_le, if_neg (Nat.not_le.mpr hlt),
      pow_zero]
    have : bpscal 1 acc = acc := by
      simp [bpscal]
    rw [this]
  · intro cs hcs
    simp only [apply_factor, hcs]
    rfl

/-- C10 witness: the accumulator behaviour at a concrete environment — a
`Var` factor with exponent 2, and exponent-0 / `Con` factors on the
accumulator `[2, 3]`. -/
theorem apply_factor_accumulator_witness :
    apply_factor ⟨[5, 6, 7, 8], 1, fun _ => some 9, [4], fun _ => none⟩
        [2, 3] ⟨.Var, 0, 2⟩ =
      .ok ((fun a => List.zipWith (· * ·) a [5, 6, 7, 8])^[2] [2, 3]) ∧
    apply_factor ⟨[5, 6, 7, 8], 1, fun _ => some 9, [4], fun _ => none⟩
        [2, 3] ⟨.Rnd, 0, 0⟩ = .ok [2, 3] ∧
    apply_factor ⟨[5, 6, 7, 8], 1, fun _ => some 9, [4], fun _ => none⟩
        [2, 3] ⟨.Con, 0, 7⟩ = .ok [2, 3] := by
  obtain ⟨h1, _, _, h4, _, _, h7⟩ := apply_factor_accumulator
    ⟨[5, 6, 7, 8], 1, fun _ => some 9, [4], fun _ => none⟩ [2, 3] 0 7
  obtain ⟨h1', _, _, _, _, _, _⟩ := apply_factor_accumulator
    ⟨[5, 6, 7, 8], 1, fun _ => some 9, [4], fun _ => none⟩ [2, 3] 0 2
  refine ⟨?_, h4 9 rfl, h7⟩
  have := h1' (by norm_num)
  simpa using this

/-! ## The marshaling boundary (mary_jets.rs, bp_jets.rs)

Boundary values are immutable binary trees of arbitrary-precision atoms
(spec §6).  The host's `Noun`, `slot` and the `try_from` decoders live in
`nockvm` / `hand::handle` / `form::mary`, outside the provided sources;
they are modelled from the spec: `slot` is Nock tree addressing, a BPoly
decodes from a length-prefixed flat buffer `[len, data]`, a Mary from a
`(step, buffer)` pair, and a shape mismatch is a decode error.  A jet
outcome is `ok`, a returned error, or a process abort (`panic`, produced by
`.expect(..)` in the Rust). -/

inductive Noun : Type
  | atom (n : ℕ)
  | cell (h t : Noun)
deriving DecidableEq

/-- Modelled from the spec: the host's `slot` (Nock axis addressing) —
axis 1 is the subject, axis `2k` the head and `2k+1` the tail of axis `k`;
a missing axis is a returned error. -/
def slot (a : ℕ) (n : Noun) : Except Unit Noun :=
  if a = 0 then .error ()
  else if a = 1 then .ok n
  else do
    let parent ← slot (a / 2) n
    match parent with
    | .atom _ => .error ()
    | .cell h t => if a % 2 = 0 then .ok h else .ok t
termination_by a
decreasing_by omega

/-- The 64-bit limbs of a flat buffer atom. -/
def limbs (count buf : ℕ) : List ℕ :=
  (List.range count).map fun i => buf / 2 ^ (64 * i) % 2 ^ 64

/-- Modelled from the spec (§6): `BPolySlice::try_from` — a BPoly handle is
a `[len, data]` cell of two atoms; anything else is a decode error. -/
def try_from_bpoly (n : Noun) : Except Unit (List Belt) :=
  match n with
  | .cell (.atom l) (.atom d) => .ok ((limbs l d).map fun x => (x : Belt))
  | _ => .error ()

/-- `Mary`: a flat row-major buffer of row width `step` and row count
`len` (spec §3). -/
structure Mary : Type where
  step : ℕ
  len : ℕ
  dat : List ℕ
deriving DecidableEq

/-- Modelled from the spec (§6): `MarySlice::try_from` — a Mary is a
`(step, buffer)` pair with a length-prefixed flat buffer; anything else is
a decode error. -/
def try_from_mary (n : Noun) : Except Unit Mary :=
  match n with
  | .cell (.atom s) (.cell (.atom c) (.atom d)) => .ok ⟨s, c / s, limbs c d⟩
  | _ => .error ()

/-- Encoding of a Belt polynomial back into a `[len, data]` handle
(`finalize_poly`). -/
def encode_limbs : List ℕ → ℕ
  | [] => 0
  | x :: t => x % 2 ^ 64 + 2 ^ 64 * encode_limbs t

def encode_bpoly (l : List Belt) : Noun :=
  .cell (.atom l.length) (.atom (encode_limbs (l.map ZMod.val)))

def encode_mary (m : Mary) : Noun :=
  .cell (.atom m.step)
    (.cell (.atom (m.step * m.len)) (.atom (encode_limbs m.dat)))

/-- The outcome of a jet call: a result, a returned error, or a process
abort. -/
inductive JetOut (α : Type) : Type
  | ok (a : α)
  | err
  | panic

/-- Modelled from the spec (§4.4): `mary_transpose` (`form::math::mary`,
outside the provided sources) — a mary of step `S` and length `L` is read
as an `L × (S/offset)` grid of width-`offset` blocks and the block grid is
transposed ("a true transpose between the offset grouping and the row
dimension"); the result has step `L * offset` and length `S / offset`, the
dimensions allocated by `mary_transpose_jet` (mary_jets.rs lines 103-107).
Generated in the write order of the loop: block row `j`, block column `i`,
intra-block index `t`, writing `res[(j*len + i)*offset + t] =
dat[i*step + j*offset + t]`. -/
def mary_transpose (m : Mary) (offset : ℕ) : Mary where
  step := m.len * offset
  len := m.step / offset
  dat :=
    (List.range (m.step / offset)).flatMap fun j =>
      (List.range m.len).flatMap fun i =>
        (List.range offset).map fun t =>
          m.dat.getD (i * m.step + j * offset + t) 0

/-- `bpadd_jet` from `bp_jets.rs` (lines 44-61): decode the two samples,
add, encode; a shape mismatch is a returned decode error. -/
def bpadd_jet (subject : Noun) : JetOut Noun :=
  match slot 6 subject with
  | .error _ => .err
  | .ok sam =>
    match slot 2 sam, slot 3 sam with
    | .ok bp, .ok bq =>
      match try_from_bpoly bp, try_from_bpoly bq with
      | .ok p, .ok q => .ok (encode_bpoly (bpadd p q))
      | _, _ => .err
    | _, _ => .err

/-- `transpose_bpolys_jet` from `mary_jets.rs` (lines 39-64): the sample is
decoded with `.expect("cannot convert bpolys arg")`, so a decode failure
aborts the process instead of returning an error. -/
def transpose_bpolys_jet (subject : Noun) : JetOut Noun :=
  match slot 6 subject with
  | .error _ => .err
  | .ok sam =>
    match try_from_mary sam with
    | .error _ => .panic
    | .ok m => .ok (encode_mary (mary_transpose m 1))

/-- C8 counterexample: on a subject whose sample is the atom `0` — which
matches no container shape — `transpose_bpolys_jet` aborts (its Rust body
uses `.expect(..)`) instead of returning a decode error. -/
theorem transpose_bpolys_jet_panics :
    transpose_bpolys_jet (.cell (.atom 0) (.cell (.atom 0) (.atom 0))) =
      .panic := by
  have hslot : slot 6 (Noun.cell (.atom 0) (.cell (.atom 0) (.atom 0))) =
      .ok (.atom 0) := by
    rw [slot]
    norm_num
    rw [slot]
    norm_num
    rw [slot]
    norm_num
    rfl
  simp [transpose_bpolys_jet, hslot, try_from_mary]

/-- C8 amended: `bpadd_jet` (and the entry points that decode with
`try_from`-style matches) returns a decode error and never aborts on a
shape mismatch, but `transpose_bpolys_jet` aborts the process whenever its
sample exists and fails Mary decoding. -/
theorem jet_decode_amended :
    (∀ subject : Noun, bpadd_jet subject ≠ .panic) ∧
    (∀ subject sam : Noun, slot 6 subject = .ok sam →
      try_from_mary sam = .error () →
      transpose_bpolys_jet subject = .panic) := by
  constructor
  · intro subject
    unfold bpadd_jet
    rcases h6 : slot 6 subject with e | sam <;> simp only [h6]
    · simp
    · rcases h2 : slot 2 sam with e2 | bp <;>
        rcases h3 : slot 3 sam with e3 | bq <;> simp only [h2, h3]
      · simp
      · simp
      · simp
      · rcases h4 : try_from_bpoly bp with e4 | p <;>
          rcases h5 : try_from_bpoly bq with e5 | q <;>
          simp [h4, h5]
  · intro subject sam hslot hm
    simp [transpose_bpolys_jet, hslot, hm]

/-- C8 witness: the amended statement at concrete nouns — a panic of
`transpose_bpolys_jet` on an undecodable sample, and no panic of
`bpadd_jet` on an undecodable subject. -/
theorem jet_decode_amended_witness :
    transpose_bpolys_jet (.cell (.atom 0) (.cell (.atom 0) (.atom 0))) =
        .panic ∧
      bpadd_jet (.atom 0) ≠ .panic := by
  constructor
  · apply jet_decode_amended.2 _ (.atom 0)
    · rw [slot]
      norm_num
      rw [slot]
      norm_num
      rw [slot]
      norm_num
      rfl
    · rfl
  · exact jet_decode_amended.1 _

/-! ## Mary transpose round trip (C9) -/

theorem flatMap_range_length {α : Type} (f : ℕ → List α) (B : ℕ)
    (hB : ∀ j, (f j).length = B) :
    ∀ n, ((List.range n).flatMap f).length = n * B := by
  intro n
  induction n with
  | zero => simp
  | succ n ih =>
    rw [List.range_succ, List.flatMap_append]
    simp only [List.length_append, ih, List.flatMap_cons, List.flatMap_nil,
      List.append_nil, hB]
    ring

theorem flatMap_range_getD {α : Type} (f : ℕ → List α) (B : ℕ)
    (hB : ∀ j, (f j).length = B) (d : α) :
    ∀ n j r, j < n → r < B →
      ((List.range n).flatMap f).getD (j * B + r) d = (f j).getD r d := by
  intro n
  induction n with
  | zero => intro j r hj _; exact absurd hj (Nat.not_lt_zero j)
  | succ n ih =>
    intro j r hj hr
    rw [List.range_succ, List.flatMap_append]
    simp only [List.flatMap_cons, List.flatMap_nil, List.append_nil]
    rcases Nat.lt_succ_iff_lt_or_eq.mp hj with hlt | rfl
    · rw [List.getD_append]
      · exact ih j r hlt hr
      · rw [flatMap_range_length f B hB]
        calc j * B + r < j * B + B := by omega
          _ = (j + 1) * B := by ring
          _ ≤ n * B := Nat.mul_le_mul_right B hlt
    · rw [List.getD_append_right]
      · rw [flatMap_range_length f B hB]
        congr 1
        omega
      · rw [flatMap_range_length f B hB]
        omega

theorem flatMap_range_congr {α : Type} (f g : ℕ → List α) (n : ℕ)
    (h : ∀ j, j < n → f j = g j) :
    (List.range n).flatMap f = (List.range n).flatMap g := by
  induction n with
  | zero => simp
  | succ n ih =>
    rw [List.range_succ, List.flatMap_append, List.flatMap_append,
      ih (fun j hj => h j (Nat.lt_succ_of_lt hj))]
    simp [h n (Nat.lt_succ_self n)]

theorem map_range_congr {α : Type} (f g : ℕ → α) (n : ℕ)
    (h : ∀ j, j < n → f j = g j) :
    (List.range n).map f = (List.range n).map g := by
  apply List.map_congr_left
  intro j hj
  exact h j (List.mem_range.mp hj)

theorem regroup_range {α : Type} (g : ℕ → α) (k : ℕ) :
    ∀ q, (List.range q).flatMap
        (fun i => (List.range k).map fun t => g (i * k + t)) =
      (List.range (q * k)).map g := by
  intro q
  induction q with
  | zero => simp
  | succ q ih =>
    rw [List.range_succ, List.flatMap_append]
    rw [show (q + 1) * k = q * k + k by ring, List.range_add,
      List.map_append, ← ih]
    simp [List.flatMap_cons, List.flatMap_nil, List.map_map,
      Function.comp]

theorem map_range_getD_take {α : Type} (l : List α) (d : α) (S : ℕ)
    (hS : S ≤ l.length) :
    (List.range S).map (fun c => l.getD c d) = l.take S := by
  apply List.ext_getElem
  · simp [hS]
  · intro i h1 h2
    have hi : i < S := by simpa using h1
    have hil : i < l.length := Nat.lt_of_lt_of_le hi hS
    simp [List.getD_eq_getElem l d hil, List.getElem?_eq_getElem hil]

theorem rows_reassemble {α : Type} (d : α) :
    ∀ (L S : ℕ) (l : List α), l.length = S * L →
      (List.range L).flatMap
          (fun j => (List.range S).map fun c => l.getD (j * S + c) d) =
        l := by
  intro L
  induction L with
  | zero =>
    intro S l hl
    simp only [List.range_zero, List.flatMap_nil]
    symm
    apply List.eq_nil_of_length_eq_zero
    omega
  | succ L ih =>
    intro S l hl
    have hSL : S * (L + 1) = S * L + S := by ring
    rw [List.range_succ_eq_map]
    simp only [List.flatMap_cons, List.flatMap_map]
    have h0 : (List.range S).map (fun c => l.getD (0 * S + c) d) =
        l.take S := by
      rw [map_range_congr _ (fun c => l.getD c d) S
        (by intro c _; simp)]
      exact map_range_getD_take l d S (by omega)
    have hrest : (List.range L).flatMap
        (fun j => (List.range S).map fun c => l.getD ((j + 1) * S + c) d) =
        l.drop S := by
      have hdl : (l.drop S).length = S * L := by
        simp only [List.length_drop, hl]
        omega
      rw [← ih S (l.drop S) hdl]
      apply flatMap_range_congr
      intro j _
      apply map_range_congr
      intro c _
      have hgd : (l.drop S).getD (j * S + c) d = l.getD (S + (j * S + c)) d := by
        rcases Nat.lt_or_ge (j * S + c) (l.drop S).length with hlt | hge
        · rw [List.getD_eq_getElem _ d hlt, List.getElem_drop,
            List.getD_eq_getElem]
        · rw [List.getD_eq_default _ d hge, List.getD_eq_default]
          simp only [List.length_drop] at hge
          omega
      rw [hgd]
      congr 1
      ring
    have hcomp : (fun j => (List.range S).map
        fun c => l.getD (Nat.succ j * S + c) d) =
        (fun j => (List.range S).map fun c => l.getD ((j + 1) * S + c) d) :=
      rfl
    rw [h0, hcomp, hrest, List.take_append_drop]

theorem mary_transpose_block_len (m : Mary) (k : ℕ) (j : ℕ) :
    ((List.range m.len).flatMap fun i =>
      (List.range k).map fun t =>
        m.dat.getD (i * m.step + j * k + t) 0).length = m.len * k := by
  apply flatMap_range_length
  intro i
  simp

theorem mary_transpose_getD (m : Mary) (k : ℕ) (j i t : ℕ)
    (hj : j < m.step / k) (hi : i < m.len) (ht : t < k) :
    (mary_transpose m k).dat.getD (j * (m.len * k) + (i * k + t)) 0 =
      m.dat.getD (i * m.step + j * k + t) 0 := by
  have hrk : i * k + t < m.len * k := by
    calc i * k + t < i * k + k := by omega
      _ = (i + 1) * k := by ring
      _ ≤ m.len * k := Nat.mul_le_mul_right k hi
  simp only [mary_transpose]
  rw [flatMap_range_getD _ (m.len * k)
    (fun j' => mary_transpose_block_len m k j') 0 _ j (i * k + t) hj hrk]
  rw [flatMap_range_getD _ k (fun i' => by simp) 0 _ i t hi ht]
  exact getD_range_map _ 0 ht

/-- C9 counterexample: for the mary `m` with step 4, length 1 and buffer
`[0,1,2,3]` and `k = 1`, transposing with offset `k` and then with offset
`step/k = 4` does not recover `m`: the second transpose has step 16 and
length 0. -/
theorem mary_transpose_roundtrip_counterexample :
    mary_transpose (mary_transpose ⟨4, 1, [0, 1, 2, 3]⟩ 1) (4 / 1) ≠
      ⟨4, 1, [0, 1, 2, 3]⟩ := by
  decide

/-- C9 amended: for every mary `m` whose step is divisible by `k > 0`
(with the `step * len` buffer invariant), transposing with offset `k` and
then transposing the result again with the same offset `k` recovers `m`
exactly — same step, same len, same buffer contents. -/
theorem mary_transpose_roundtrip (m : Mary) (k : ℕ) (hk : 0 < k)
    (hdvd : k ∣ m.step) (hlen : m.dat.length = m.step * m.len) :
    mary_transpose (mary_transpose m k) k = m := by
  obtain ⟨S, L, dat⟩ := m
  have hq : S / k * k = S := Nat.div_mul_cancel hdvd
  have hstep2 : (mary_transpose (mary_transpose ⟨S, L, dat⟩ k) k).step =
      S := by
    simp only [mary_transpose]
    exact hq
  have hlen2 : (mary_transpose (mary_transpose ⟨S, L, dat⟩ k) k).len = L := by
    simp only [mary_transpose]
    exact Nat.mul_div_cancel L hk
  have hdat2 : (mary_transpose (mary_transpose ⟨S, L, dat⟩ k) k).dat =
      dat := by
    show (List.range (L * k / k)).flatMap
        (fun j' => (List.range (S / k)).flatMap fun i' =>
          (List.range k).map fun t =>
            (mary_transpose ⟨S, L, dat⟩ k).dat.getD
              (i' * (L * k) + j' * k + t) 0) = dat
    rw [Nat.mul_div_cancel L hk]
    have step1 : ∀ j', j' < L →
        ((List.range (S / k)).flatMap fun i' =>
          (List.range k).map fun t =>
            (mary_transpose ⟨S, L, dat⟩ k).dat.getD
              (i' * (L * k) + j' * k + t) 0) =
        ((List.range (S / k)).flatMap fun i' =>
          (List.range k).map fun t =>
            dat.getD (j' * S + (i' * k + t)) 0) := by
      intro j' hj'
      apply flatMap_range_congr
      intro i' hi'
      apply map_range_congr
      intro t ht
      have := mary_transpose_getD ⟨S, L, dat⟩ k i' j' t hi' hj' ht
      simp only at this
      calc (mary_transpose ⟨S, L, dat⟩ k).dat.getD
            (i' * (L * k) + j' * k + t) 0
          = (mary_transpose ⟨S, L, dat⟩ k).dat.getD
            (i' * (L * k) + (j' * k + t)) 0 := by rw [Nat.add_assoc]
        _ = dat.getD (j' * S + i' * k + t) 0 := this
        _ = dat.getD (j' * S + (i' * k + t)) 0 := by rw [Nat.add_assoc]
    rw [flatMap_range_congr _ _ L step1]
    have step2 : ∀ j', j' < L →
        ((List.range (S / k)).flatMap fun i' =>
          (List.range k).map fun t =>
            dat.getD (j' * S + (i' * k + t)) 0) =
        (List.range S).map fun c => dat.getD (j' * S + c) 0 := by
      intro j' _
      rw [regroup_range (fun c => dat.getD (j' * S + c) 0) k (S / k), hq]
    rw [flatMap_range_congr _ _ L step2]
    exact rows_reassemble 0 L S dat hlen
  calc mary_transpose (mary_transpose ⟨S, L, dat⟩ k) k
      = ⟨(mary_transpose (mary_transpose ⟨S, L, dat⟩ k) k).step,
          (mary_transpose (mary_transpose ⟨S, L, dat⟩ k) k).len,
          (mary_transpose (mary_transpose ⟨S, L, dat⟩ k) k).dat⟩ := rfl
    _ = ⟨S, L, dat⟩ := by rw [hstep2, hlen2, hdat2]

/-- C9 witness: the amended round trip at a concrete mary with step 2,
length 1 and offset 2. -/
theorem mary_transpose_roundtrip_witness :
    mary_transpose (mary_transpose ⟨2, 1, [5, 6]⟩ 2) 2 = ⟨2, 1, [5, 6]⟩ :=
  mary_transpose_roundtrip ⟨2, 1, [5, 6]⟩ 2 (by decide) (by decide)
    (by decide)

/-! ## Lagrange interpolation and Horner evaluation (fp_jets.rs) -/

section Interp

variable {F : Type} [Field F]

/-- `fpeval_poly` from `fp_jets.rs` (lines 489-503): Horner's method.  The
Rust loop starts from the last coefficient and folds downward,
`result = result * x + p[i]`; that loop is this recursion, with the empty
polynomial evaluating to zero. -/
def fpeval_poly : List F → F → F
  | [], _ => 0
  | c :: cs, x => c + x * fpeval_poly cs x

/-- One basis-building step of `interpolate_poly` (fp_jets.rs lines
561-584): multiply the basis polynomial by `(x - c)` — shift the
coefficients up by one (`new_basis[k+1] = basis[k]`) and subtract
`c * basis[k]` from `new_basis[k]`. -/
def mulLinearFactor (c : F) (b : List F) : List F :=
  List.zipWith (fun hi lo => hi - c * lo) (0 :: b) (b ++ [0])

/-- The coefficient accumulation of `interpolate_poly` (lines 586-592):
`res[k] += scale * basis[k]` for `k < min (len basis) (len res)`, the other
entries unchanged. -/
def accumulate (res add : List F) : List F :=
  (List.range res.length).map fun k =>
    if k < add.length then res.getD k 0 + add.getD k 0 else res.getD k 0

/-- `interpolate_poly` from `fp_jets.rs` (lines 525-594): Lagrange
interpolation — for each sample `i`, the scalar denominator
`prod (domain[i] - domain[j])` over `j ≠ i`, the basis polynomial
`prod (x - domain[j])` built one linear factor at a time, and the
accumulation of `values[i]/denom * basis` into a result buffer of length
`len domain`. -/
def interpolate_poly (domain values : List F) : List F :=
  let n := domain.length
  (List.range n).foldl
    (fun res i =>
      let others := (List.range n).filter fun j => j ≠ i
      let denom := others.foldl
        (fun dn j => dn * (domain.getD i 0 - domain.getD j 0)) 1
      let scale := values.getD i 0 / denom
      let basis := others.foldl
        (fun b j => mulLinearFactor (domain.getD j 0) b) [1]
      accumulate res (basis.map fun a => scale * a))
    (List.replicate n 0)

/-- Window-shifted form of `mulLinearFactor`, used to run the induction. -/
def mulLinearGo (c : F) : F → List F → List F
  | prev, [] => [prev - c * 0]
  | prev, b0 :: t => (prev - c * b0) :: mulLinearGo c b0 t

theorem mulLinearFactor_eq_go (c : F) :
    ∀ (b : List F) (prev : F),
      List.zipWith (fun hi lo => hi - c * lo) (prev :: b) (b ++ [0]) =
        mulLinearGo c prev b := by
  intro b
  induction b with
  | nil => intro prev; rfl
  | cons b0 t ih =>
    intro prev
    simp only [List.cons_append, List.zipWith_cons_cons, mulLinearGo]
    rw [ih b0]

theorem fpeval_mulLinearGo (c x : F) :
    ∀ (b : List F) (prev : F),
      fpeval_poly (mulLinearGo c prev b) x =
        prev + (x - c) * fpeval_poly b x := by
  intro b
  induction b with
  | nil =>
    intro prev
    simp [mulLinearGo, fpeval_poly]
  | cons b0 t ih =>
    intro prev
    simp only [mulLinearGo, fpeval_poly, ih b0]
    ring

theorem fpeval_mulLinearFactor (c x : F) (b : List F) :
    fpeval_poly (mulLinearFactor c b) x = (x - c) * fpeval_poly b x := by
  rw [mulLinearFactor, mulLinearFactor_eq_go c b 0, fpeval_mulLinearGo]
  ring

theorem mulLinearGo_length (c : F) :
    ∀ (b : List F) (prev : F), (mulLinearGo c prev b).length = b.length + 1 := by
  intro b
  induction b with
  | nil => intro prev; rfl
  | cons b0 t ih => intro prev; simp [mulLinearGo, ih b0]

theorem mulLinearFactor_length (c : F) (b : List F) :
    (mulLinearFactor c b).length = b.length + 1 := by
  rw [mulLinearFactor, mulLinearFactor_eq_go c b 0, mulLinearGo_length]

theorem basis_foldl_length (domain : List F) :
    ∀ (l : List ℕ) (b : List F),
      (l.foldl (fun b j => mulLinearFactor (domain.getD j 0) b) b).length =
        b.length + l.length := by
  intro l
  induction l with
  | nil => intro b; rfl
  | cons j t ih =>
    intro b
    simp only [List.foldl_cons, ih, mulLinearFactor_length,
      List.length_cons]
    omega

theorem fpeval_basis_foldl (domain : List F) (x : F) :
    ∀ (l : List ℕ) (b : List F),
      fpeval_poly
          (l.foldl (fun b j => mulLinearFactor (domain.getD j 0) b) b) x =
        (l.map fun j => x - domain.getD j 0).prod * fpeval_poly b x := by
  intro l
  induction l with
  | nil => intro b; simp
  | cons j t ih =>
    intro b
    simp only [List.foldl_cons, ih, fpeval_mulLinearFactor, List.map_cons,
      List.prod_cons]
    ring

theorem denom_foldl (domain : List F) (i : ℕ) :
    ∀ (l : List ℕ) (d0 : F),
      l.foldl (fun dn j => dn * (domain.getD i 0 - domain.getD j 0)) d0 =
        d0 * (l.map fun j => domain.getD i 0 - domain.getD j 0).prod := by
  intro l
  induction l with
  | nil => intro d0; simp
  | cons j t ih =>
    intro d0
    simp only [List.foldl_cons, ih, List.map_cons, List.prod_cons]
    ring

theorem fpeval_zipWith_add :
    ∀ (a b : List F) (x : F), a.length = b.length →
      fpeval_poly (List.zipWith (· + ·) a b) x =
        fpeval_poly a x + fpeval_poly b x := by
  intro a
  induction a with
  | nil =>
    intro b x h
    have hb : b = [] := List.eq_nil_of_length_eq_zero h.symm
    subst hb
    simp [fpeval_poly]
  | cons a0 t ih =>
    intro b x h
    cases b with
    | nil => simp at h
    | cons b0 u =>
      simp only [List.zipWith_cons_cons, fpeval_poly]
      rw [ih u x (by simpa using h)]
      ring

theorem accumulate_eq_zipWith (res add : List F)
    (h : add.length = res.length) :
    accumulate res add = List.zipWith (· + ·) res add := by
  apply List.ext_getElem
  · simp [accumulate, h]
  · intro k h1 h2
    have hk : k < res.length := by simpa [accumulate] using h1
    have hka : k < add.length := by omega
    simp only [accumulate, List.getElem_map, List.getElem_range,
      List.getElem_zipWith]
    rw [if_pos hka, List.getD_eq_getElem res 0 hk,
      List.getD_eq_getElem add 0 hka]

theorem fpeval_map_scale (s x : F) :
    ∀ b : List F,
      fpeval_poly (b.map fun a => s * a) x = s * fpeval_poly b x := by
  intro b
  induction b with
  | nil => simp [fpeval_poly]
  | cons b0 t ih =>
    simp only [List.map_cons, fpeval_poly, ih]
    ring

theorem fpeval_replicate_zero (x : F) :
    ∀ n, fpeval_poly (List.replicate n (0 : F)) x = 0 := by
  intro n
  induction n with
  | zero => rfl
  | succ n ih => simp [List.replicate_succ, fpeval_poly, ih]

theorem filter_ne_length (n i : ℕ) (hi : i < n) :
    ((List.range n).filter fun j => j ≠ i).length = n - 1 := by
  have hnd := List.nodup_range n
  have hmem : i ∈ List.range n := List.mem_range.mpr hi
  have hfun : (fun j => decide (j ≠ i)) = fun j : ℕ => j != i := by
    funext j
    by_cases h : j = i <;> simp [h]
  rw [hfun, ← List.Nodup.erase_eq_filter hnd i,
    List.length_erase_of_mem hmem, List.length_range]

theorem accumulate_length (res add : List F) :
    (accumulate res add).length = res.length := by
  simp [accumulate]

theorem fpeval_one (x : F) : fpeval_poly [1] x = 1 := by
  simp [fpeval_poly]

theorem interp_step_eval (domain values : List F) (x : F) (i : ℕ)
    (hi : i < domain.length) (res : List F)
    (hres : res.length = domain.length) :
    fpeval_poly
        (accumulate res
          ((((List.range domain.length).filter fun j => j ≠ i).foldl
              (fun b j => mulLinearFactor (domain.getD j 0) b) [1]).map
            fun a =>
              values.getD i 0 /
                (((List.range domain.length).filter fun j => j ≠ i).foldl
                  (fun dn j => dn * (domain.getD i 0 - domain.getD j 0))
                  1) * a)) x =
      fpeval_poly res x +
        values.getD i 0 /
            (((List.range domain.length).filter fun j => j ≠ i).map
              fun j => domain.getD i 0 - domain.getD j 0).prod *
          (((List.range domain.length).filter fun j => j ≠ i).map
            fun j => x - domain.getD j 0).prod := by
  have hblen : ((((List.range domain.length).filter fun j => j ≠ i).foldl
      (fun b j => mulLinearFactor (domain.getD j 0) b) [1]).map
        fun a =>
          values.getD i 0 /
            (((List.range domain.length).filter fun j => j ≠ i).foldl
              (fun dn j => dn * (domain.getD i 0 - domain.getD j 0))
              1) * a).length = res.length := by
    rw [List.length_map, basis_foldl_length, filter_ne_length _ _ hi, hres]
    simp only [List.length_cons, List.length_nil]
    omega
  rw [accumulate_eq_zipWith _ _ hblen, fpeval_zipWith_add _ _ _ hblen.symm,
    fpeval_map_scale, fpeval_basis_foldl, fpeval_one, denom_foldl]
  ring

theorem interp_foldl_eval (domain values : List F) (x : F) :
    ∀ (l : List ℕ) (res : List F), res.length = domain.length →
      (∀ i ∈ l, i < domain.length) →
      fpeval_poly
          (l.foldl
            (fun res i =>
              accumulate res
                ((((List.range domain.length).filter fun j => j ≠ i).foldl
                    (fun b j => mulLinearFactor (domain.getD j 0) b)
                    [1]).map
                  fun a =>
                    values.getD i 0 /
                      (((List.range domain.length).filter
                          fun j => j ≠ i).foldl
                        (fun dn j =>
                          dn * (domain.getD i 0 - domain.getD j 0))
                        1) * a))
            res) x =
        fpeval_poly res x +
          (l.map fun i =>
            values.getD i 0 /
                (((List.range domain.length).filter fun j => j ≠ i).map
                  fun j => domain.getD i 0 - domain.getD j 0).prod *
              (((List.range domain.length).filter fun j => j ≠ i).map
                fun j => x - domain.getD j 0).prod).sum := by
  intro l
  induction l with
  | nil =>
    intro res hres _
    simp
  | cons i t ih =>
    intro res hres hmem
    have hi : i < domain.length := hmem i (List.mem_cons_self i t)
    simp only [List.foldl_cons, List.map_cons, List.sum_cons]
    rw [ih _ (by rw [accumulate_length, hres])
      (fun i hi' => hmem i (List.mem_cons_of_mem _ hi'))]
    rw [interp_step_eval domain values x i hi res hres]
    ring

theorem sum_map_eq_single (l : List ℕ) (f : ℕ → F) (t : ℕ)
    (hnd : l.Nodup) (hmem : t ∈ l) (hz : ∀ i ∈ l, i ≠ t → f i = 0) :
    (l.map f).sum = f t := by
  induction l with
  | nil => simp at hmem
  | cons a u ih =>
    rcases List.mem_cons.mp hmem with rfl | htu
    · have hnotu : t ∉ u := (List.nodup_cons.mp hnd).1
      have hzu : ∀ y ∈ u.map f, y = 0 := by
        intro y hy
        obtain ⟨i, hiu, rfl⟩ := List.mem_map.mp hy
        exact hz i (List.mem_cons_of_mem _ hiu)
          (fun h => hnotu (h ▸ hiu))
      simp [List.sum_eq_zero hzu]
    · have ha : f a = 0 := by
        apply hz a (List.mem_cons_self a u)
        intro h
        exact (List.nodup_cons.mp hnd).1 (h ▸ htu)
      simp only [List.map_cons, List.sum_cons, ha, zero_add]
      exact ih (List.nodup_cons.mp hnd).2 htu
        fun i hiu hne => hz i (List.mem_cons_of_mem _ hiu) hne

/-- C4: for a nonempty list of pairwise-distinct domain points and a
values list of the same length, the polynomial returned by
`interpolate_poly` evaluates, via Horner's `fpeval_poly`, at `domain[t]`
to `values[t]` for every index `t`. -/
theorem interpolate_poly_eval {F : Type} [Field F]
    (domain values : List F) (hlen : domain.length = values.length)
    (hdist : ∀ i, i < domain.length → ∀ j, j < domain.length → i ≠ j →
      domain.getD i 0 ≠ domain.getD j 0)
    (t : ℕ) (ht : t < domain.length) :
    fpeval_poly (interpolate_poly domain values) (domain.getD t 0) =
      values.getD t 0 := by
  set n := domain.length with hn
  set x := domain.getD t 0 with hx
  have hmain := interp_foldl_eval domain values x (List.range n)
    (List.replicate n 0) (by simp [hn])
    (fun i hi => by simpa [hn] using List.mem_range.mp hi)
  rw [interpolate_poly]
  rw [hmain, fpeval_replicate_zero, zero_add]
  have hsingle := sum_map_eq_single (List.range n)
    (fun i =>
      values.getD i 0 /
          (((List.range n).filter fun j => j ≠ i).map
            fun j => domain.getD i 0 - domain.getD j 0).prod *
        (((List.range n).filter fun j => j ≠ i).map
          fun j => x - domain.getD j 0).prod)
    t (List.nodup_range n) (List.mem_range.mpr ht) ?hz
  case hz =>
    intro i hil hit
    have hi : i < n := List.mem_range.mp hil
    have h0mem : (0 : F) ∈ ((List.range n).filter fun j => j ≠ i).map
        fun j => x - domain.getD j 0 := by
      apply List.mem_map.mpr
      refine ⟨t, ?_, ?_⟩
      · apply List.mem_filter.mpr
        exact ⟨List.mem_range.mpr ht, by simpa using Ne.symm hit⟩
      · rw [hx, sub_self]
    exact mul_eq_zero_of_right _ (List.prod_eq_zero h0mem)
  rw [hsingle]
  show values.getD t 0 /
      (((List.range n).filter fun j => j ≠ t).map
        fun j => domain.getD t 0 - domain.getD j 0).prod *
    (((List.range n).filter fun j => j ≠ t).map
      fun j => x - domain.getD j 0).prod = values.getD t 0
  have hprodx : (((List.range n).filter fun j => j ≠ t).map
      fun j => x - domain.getD j 0) =
      ((List.range n).filter fun j => j ≠ t).map
        fun j => domain.getD t 0 - domain.getD j 0 := by
    rw [hx]
  have hne : ((((List.range n).filter fun j => j ≠ t).map
      fun j => domain.getD t 0 - domain.getD j 0)).prod ≠ 0 := by
    apply List.prod_ne_zero
    intro h0
    obtain ⟨j, hjf, hj0⟩ := List.mem_map.mp h0
    have hjr := List.mem_filter.mp hjf
    have hjn : j < n := List.mem_range.mp hjr.1
    have hjt : j ≠ t := by simpa using hjr.2
    exact hdist t ht j hjn (fun h => hjt h.symm) (sub_eq_zero.mp hj0)
  rw [hprodx, div_mul_cancel₀ _ hne]

instance fact_prime_5 : Fact (Nat.Prime 5) := ⟨by norm_num⟩

/-- C4 witness: interpolation through the two points `(1,3)` and `(2,4)`
over `ZMod 5`, evaluated back at the first domain point. -/
theorem interpolate_poly_eval_witness :
    fpeval_poly
        (interpolate_poly ([1, 2] : List (ZMod 5)) ([3, 4] : List (ZMod 5)))
        (([1, 2] : List (ZMod 5)).getD 0 0) = ([3, 4] : List (ZMod 5)).getD 0 0 :=
  interpolate_poly_eval ([1, 2] : List (ZMod 5)) ([3, 4] : List (ZMod 5))
    rfl (by decide) 0 (by decide)

end Interp

/-! ## Recursive number-theoretic transform (fp_jets.rs)

`fp_fft_poly` / `fp_ifft_poly` (fp_jets.rs lines 225-342) split a
power-of-two-length polynomial into even and odd halves, recurse with the
squared root of unity, and combine with
`res[i] = evens[i mod half] + root^i * odds[i mod half]`; the inverse runs
the same recursion with the inverse root and scales by `n⁻¹`.  The
`get_root_of_unity` table holds concrete Goldilocks constants tied to the
external extension-field primitives; modelled from the spec ("the canonical
order-n root of unity") as a parameter `roots` whose primitivity becomes a
hypothesis of the theorems. -/

section Fft

variable {F : Type} [Field F]

/-- The even-index extraction of `fp_fft_poly`
(`evens[i/2] = p[i]` for even `i`, fp_jets.rs lines 245-251). -/
def evens {α : Type} : List α → List α
  | [] => []
  | [a] => [a]
  | a :: _ :: t => a :: evens t

/-- The odd-index extraction (`odds[i/2] = p[i]` for odd `i`). -/
def odds {α : Type} (l : List α) : List α :=
  evens (l.drop 1)

theorem evens_length {α : Type} :
    ∀ l : List α, (evens l).length = (l.length + 1) / 2
  | [] => by simp [evens]
  | [_] => by simp [evens]
  | _ :: _ :: t => by
    simp only [evens, List.length_cons, evens_length t]
    omega

theorem odds_length {α : Type} (l : List α) :
    (odds l).length = l.length / 2 := by
  cases l with
  | nil => simp [odds, evens]
  | cons a t =>
    simp only [odds, List.drop_one, List.tail_cons, evens_length,
      List.length_cons]

theorem evens_getD {α : Type} (d : α) :
    ∀ (l : List α) (j : ℕ), (evens l).getD j d = l.getD (2 * j) d
  | [], j => by simp [evens]
  | [a], j => by
    cases j with
    | zero => simp [evens]
    | succ j =>
      have h2 : 2 * (j + 1) = 2 * j + 1 + 1 := by ring
      simp [evens, h2]
  | a :: b :: t, j => by
    cases j with
    | zero => simp [evens]
    | succ j =>
      have := evens_getD d t j
      simp only [evens, List.getD_cons_succ]
      rw [this]
      have h2 : 2 * (j + 1) = 2 * j + 1 + 1 := by ring
      rw [h2, List.getD_cons_succ, List.getD_cons_succ]

theorem odds_getD {α : Type} (d : α) (l : List α) (j : ℕ) :
    (odds l).getD j d = l.getD (2 * j + 1) d := by
  cases l with
  | nil => simp [odds, evens]
  | cons a t =>
    simp only [odds, List.drop_one, List.tail_cons]
    rw [evens_getD d t j, List.getD_cons_succ]

/-- The direct transform: entry `i` is `∑ p[j] ω^(i*j)`; the recursive
algorithm is proved equal to this. -/
def dftSum (ω : F) (p : List F) (i : ℕ) : F :=
  ∑ j ∈ Finset.range p.length, p.getD j 0 * ω ^ (i * j)

def dft (ω : F) (p : List F) : List F :=
  (List.range p.length).map (dftSum ω p)

/-- `fp_fft_recursive` from `fp_jets.rs` (lines 275-315): base case length
1, even/odd split, recursion with the squared root, and the combine step.
(Length 0, on which the Rust recursion would not terminate, is a base case
returning the empty list; the theorems only concern power-of-two
lengths.) -/
def fp_fft_recursive (root : F) (p : List F) : List F :=
  match p with
  | [] => []
  | [a] => [a]
  | a :: b :: t =>
    let q := a :: b :: t
    let half := q.length / 2
    let ev := fp_fft_recursive (root * root) (evens q)
    let od := fp_fft_recursive (root * root) (odds q)
    (List.range q.length).map fun i =>
      ev.getD (i % half) 0 + root ^ i * od.getD (i % half) 0
termination_by p.length
decreasing_by
  · simp only [evens_length, List.length_cons]
    omega
  · simp only [odds_length, List.length_cons]
    omega

/-- `fp_fft_poly` from `fp_jets.rs` (lines 225-272): its body is textually
the recursion of `fp_fft_recursive`, run at the top-level root
`get_root_of_unity (log2 n)` (`trailing_zeros` equals `log2` on powers of
two). -/
def fp_fft_poly (roots : ℕ → F) (p : List F) : List F :=
  fp_fft_recursive (roots (Nat.log2 p.length)) p

/-- `fp_ifft_poly` from `fp_jets.rs` (lines 318-342): the same recursion
with the inverse root, then every output scaled by `n⁻¹`. -/
def fp_ifft_poly (roots : ℕ → F) (p : List F) : List F :=
  (fp_fft_recursive (roots (Nat.log2 p.length))⁻¹ p).map
    fun y => y * (p.length : F)⁻¹

theorem sum_range_even_odd (m : ℕ) (f : ℕ → F) :
    ∑ j ∈ Finset.range (2 * m), f j =
      (∑ j ∈ Finset.range m, f (2 * j)) +
        ∑ j ∈ Finset.range m, f (2 * j + 1) := by
  induction m with
  | zero => simp
  | succ m ih =>
    have h2 : 2 * (m + 1) = 2 * m + 1 + 1 := by ring
    rw [h2, Finset.sum_range_succ, Finset.sum_range_succ,
      Finset.sum_range_succ (fun j => f (2 * j)),
      Finset.sum_range_succ (fun j => f (2 * j + 1)), ih]
    ring

theorem pow_mod_half (ω : F) (half : ℕ) (hω : ω ^ (2 * half) = 1)
    (i j : ℕ) : ω ^ (i * (2 * j)) = (ω * ω) ^ (i % half * j) := by
  have hsplit : i * (2 * j) =
      2 * (i % half * j) + 2 * half * (i / half * j) := by
    calc i * (2 * j) = (half * (i / half) + i % half) * (2 * j) := by
          rw [Nat.div_add_mod]
      _ = 2 * (i % half * j) + 2 * half * (i / half * j) := by ring
  rw [hsplit, pow_add, pow_mul ω (2 * half), hω, one_pow, mul_one,
    pow_mul ω 2, pow_two]

theorem dftSum_combine (ω : F) (q : List F) (half : ℕ) (hhalf : 0 < half)
    (hq : q.length = 2 * half) (he : (evens q).length = half)
    (ho : (odds q).length = half) (hω : ω ^ (2 * half) = 1) (i : ℕ) :
    dftSum ω q i =
      dftSum (ω * ω) (evens q) (i % half) +
        ω ^ i * dftSum (ω * ω) (odds q) (i % half) := by
  unfold dftSum
  rw [hq, he, ho, sum_range_even_odd]
  congr 1
  · apply Finset.sum_congr rfl
    intro j _
    rw [evens_getD, pow_mod_half ω half hω i j]
  · rw [Finset.mul_sum]
    apply Finset.sum_congr rfl
    intro j _
    rw [odds_getD]
    have hsplit : i * (2 * j + 1) = i + i * (2 * j) := by ring
    rw [hsplit, pow_add, pow_mod_half ω half hω i j]
    ring

theorem dft_length (ω : F) (p : List F) : (dft ω p).length = p.length := by
  simp [dft]

theorem dft_getD (ω : F) (p : List F) (m : ℕ) (hm : m < p.length) :
    (dft ω p).getD m 0 = dftSum ω p m :=
  getD_range_map _ _ hm

theorem fft_rec_eq_dft :
    ∀ (k : ℕ) (ω : F) (p : List F), p.length = 2 ^ k → ω ^ 2 ^ k = 1 →
      fp_fft_recursive ω p = dft ω p := by
  intro k
  induction k with
  | zero =>
    intro ω p hlen _
    obtain ⟨a, rfl⟩ := List.length_eq_one.mp (by simpa using hlen)
    rw [fp_fft_recursive]
    have h1 : dft ω [a] = [dftSum ω [a] 0] := rfl
    have h2 : dftSum ω [a] 0 = a := by
      simp [dftSum, Finset.sum_range_one]
    rw [h1, h2]
  | succ k ih =>
    intro ω p hlen hω
    have hpos : (0:ℕ) < 2 ^ k := pow_pos (by norm_num) k
    have hpow : (2:ℕ) ^ (k + 1) = 2 * 2 ^ k := by
      rw [pow_succ]
      ring
    have h2le : 2 ≤ p.length := by
      rw [hlen, hpow]
      omega
    rcases p with _ | ⟨a, _ | ⟨b, t⟩⟩
    · simp at h2le
    · simp at h2le
    simp only [fp_fft_recursive]
    have hq : (a :: b :: t).length = 2 * 2 ^ k := by
      rw [hlen, hpow]
    have he : (evens (a :: b :: t)).length = 2 ^ k := by
      rw [evens_length, hq]
      omega
    have ho : (odds (a :: b :: t)).length = 2 ^ k := by
      rw [odds_length, hq]
      omega
    have hω2 : (ω * ω) ^ 2 ^ k = 1 := by
      rw [← pow_two, ← pow_mul, mul_comm 2 (2 ^ k), ← pow_succ, hω]
    have hωh : ω ^ (2 * 2 ^ k) = 1 := by
      rw [← hpow, hω]
    rw [ih (ω * ω) (evens (a :: b :: t)) he hω2,
      ih (ω * ω) (odds (a :: b :: t)) ho hω2]
    have hhalf : (a :: b :: t).length / 2 = 2 ^ k := by
      rw [hq]
      omega
    conv_rhs => rw [dft]
    apply map_range_congr
    intro i _
    rw [hhalf]
    have hmlt : i % 2 ^ k < 2 ^ k := Nat.mod_lt i hpos
    rw [dft_getD _ _ _ (by rw [he]; exact hmlt),
      dft_getD _ _ _ (by rw [ho]; exact hmlt)]
    exact (dftSum_combine ω (a :: b :: t) (2 ^ k) hpos hq he ho hωh i).symm

theorem dft_map_scale (ω c : F) (p : List F) :
    dft ω (p.map fun y => y * c) = (dft ω p).map fun y => y * c := by
  unfold dft
  rw [List.length_map, List.map_map]
  apply map_range_congr
  intro i _
  show dftSum ω (p.map fun y => y * c) i = dftSum ω p i * c
  unfold dftSum
  rw [List.length_map, Finset.sum_mul]
  apply Finset.sum_congr rfl
  intro j hj
  have hjl : j < p.length := Finset.mem_range.mp hj
  rw [List.getD_eq_getElem _ 0 (by simpa using hjl), List.getElem_map,
    List.getD_eq_getElem _ 0 hjl]
  ring

theorem dft_dft_inv (ω : F) (n : ℕ) (hn : 0 < n) (hω : ω ^ n = 1)
    (hprim : ∀ d, d < n → 0 < d → ω ^ d ≠ 1) (p : List F)
    (hp : p.length = n) :
    dft ω (dft ω⁻¹ p) = p.map fun y => (n : F) * y := by
  have hω0 : ω ≠ 0 := by
    intro h
    rw [h, zero_pow hn.ne'] at hω
    exact zero_ne_one hω
  have hpow_inj : ∀ a b, a < n → b < n → ω ^ a = ω ^ b → a = b := by
    intro a b ha hb hab
    rcases Nat.lt_trichotomy a b with h | h | h
    · exfalso
      have hd : ω ^ a * ω ^ (b - a) = ω ^ a * 1 := by
        rw [mul_one, ← pow_add, show a + (b - a) = b by omega, hab]
      have := mul_left_cancel₀ (pow_ne_zero a hω0) hd
      exact hprim (b - a) (by omega) (by omega) this
    · exact h
    · exfalso
      have hd : ω ^ b * ω ^ (a - b) = ω ^ b * 1 := by
        rw [mul_one, ← pow_add, show b + (a - b) = a by omega, hab]
      have := mul_left_cancel₀ (pow_ne_zero b hω0) hd
      exact hprim (a - b) (by omega) (by omega) this
  have hζn : ∀ j t : ℕ, (ω ^ t * (ω⁻¹) ^ j) ^ n = 1 := by
    intro j t
    rw [mul_pow, ← pow_mul, ← pow_mul, mul_comm t n, mul_comm j n,
      pow_mul, pow_mul, hω, inv_pow, hω, inv_one, one_pow, one_pow,
      one_mul]
  have hζone : ∀ t : ℕ, ω ^ t * (ω⁻¹) ^ t = 1 := by
    intro t
    rw [inv_pow, mul_inv_cancel₀ (pow_ne_zero t hω0)]
  have hζne : ∀ j t, j < n → t < n → j ≠ t →
      ω ^ t * (ω⁻¹) ^ j ≠ 1 := by
    intro j t hj ht hjt h1
    rw [inv_pow, mul_inv_eq_one₀ (pow_ne_zero j hω0)] at h1
    exact hjt (hpow_inj j t hj ht h1.symm)
  have hgeom : ∀ j t, j < n → t < n →
      (∑ i ∈ Finset.range n, (ω ^ t * (ω⁻¹) ^ j) ^ i) =
        if j = t then (n : F) else 0 := by
    intro j t hj ht
    by_cases hjt : j = t
    · subst hjt
      rw [if_pos rfl, hζone j]
      simp [Finset.sum_const, Finset.card_range, nsmul_eq_mul]
    · rw [if_neg hjt, geom_sum_eq (hζne j t hj ht hjt) n, hζn j t,
        sub_self, zero_div]
  apply List.ext_getElem
  · simp [dft, hp]
  · intro t h1 h2
    have htn : t < n := by
      simpa [dft, hp] using h2
    have hdl : (dft ω⁻¹ p).length = n := by
      rw [dft_length, hp]
    have htp : t < p.length := by
      rw [hp]
      exact htn
    have hL : (dft ω (dft ω⁻¹ p))[t] = dftSum ω (dft ω⁻¹ p) t := by
      simp [dft]
    have hR : (p.map fun y => (n : F) * y)[t] = (n : F) * p.getD t 0 := by
      rw [List.getElem_map, List.getD_eq_getElem _ 0 htp]
    rw [hL, hR]
    unfold dftSum
    rw [hdl]
    have hstep : ∀ i ∈ Finset.range n,
        (dft ω⁻¹ p).getD i 0 * ω ^ (t * i) =
          ∑ j ∈ Finset.range n,
            p.getD j 0 * ((ω ^ t * (ω⁻¹) ^ j) ^ i) := by
      intro i hi
      have hin : i < n := Finset.mem_range.mp hi
      rw [dft_getD _ _ _ (by rw [hp]; exact hin)]
      unfold dftSum
      rw [hp, Finset.sum_mul]
      apply Finset.sum_congr rfl
      intro j _
      rw [mul_pow, ← pow_mul, ← pow_mul, mul_comm j i, mul_comm t i]
      ring
    rw [Finset.sum_congr rfl hstep, Finset.sum_comm]
    have hinner : ∀ j ∈ Finset.range n,
        (∑ i ∈ Finset.range n,
          p.getD j 0 * ((ω ^ t * (ω⁻¹) ^ j) ^ i)) =
          if j = t then p.getD j 0 * (n : F) else 0 := by
      intro j hj
      rw [← Finset.mul_sum, hgeom j t (Finset.mem_range.mp hj) htn]
      by_cases hjt : j = t
      · rw [if_pos hjt, if_pos hjt]
      · rw [if_neg hjt, if_neg hjt, mul_zero]
    rw [Finset.sum_congr rfl hinner, Finset.sum_ite_eq' (Finset.range n) t
      (fun j => p.getD j 0 * (n : F)), if_pos (Finset.mem_range.mpr htn)]
    ring

/-- C3: round trip of the recursive transform — for every polynomial of
power-of-two length `2^k`, with the canonical root of unity of order `2^k`
(primitive, and with `2^k` invertible in the coefficient field), applying
the inverse transform and then the forward transform returns the
polynomial unchanged. -/
theorem fft_ifft_roundtrip {F : Type} [Field F] (roots : ℕ → F)
    (p : List F) (k : ℕ) (hlen : p.length = 2 ^ k)
    (hroot1 : roots k ^ 2 ^ k = 1)
    (hprim : ∀ d, d < 2 ^ k → 0 < d → roots k ^ d ≠ 1)
    (hchar : ((2 ^ k : ℕ) : F) ≠ 0) :
    fp_fft_poly roots (fp_ifft_poly roots p) = p := by
  have hlog : Nat.log2 p.length = k := by
    rw [hlen, Nat.log2_eq_log_two, Nat.log_pow (by norm_num)]
  have hpos : (0:ℕ) < 2 ^ k := pow_pos (by norm_num) k
  have hinv1 : (roots k)⁻¹ ^ 2 ^ k = 1 := by
    rw [inv_pow, hroot1, inv_one]
  have hifft : fp_ifft_poly roots p =
      (dft (roots k)⁻¹ p).map fun y => y * (((2 ^ k : ℕ) : F))⁻¹ := by
    unfold fp_ifft_poly
    rw [hlog, fft_rec_eq_dft k (roots k)⁻¹ p hlen hinv1, hlen]
  have hilen : (fp_ifft_poly roots p).length = 2 ^ k := by
    rw [hifft, List.length_map, dft_length, hlen]
  have hlog2 : Nat.log2 (fp_ifft_poly roots p).length = k := by
    rw [hilen, Nat.log2_eq_log_two, Nat.log_pow (by norm_num)]
  unfold fp_fft_poly
  rw [hlog2, fft_rec_eq_dft k (roots k) _ hilen hroot1, hifft,
    dft_map_scale, dft_dft_inv (roots k) (2 ^ k) hpos hroot1 hprim p hlen,
    List.map_map]
  have hid : ∀ y : F,
      ((fun y => y * (((2 ^ k : ℕ) : F))⁻¹) ∘
        fun y => ((2 ^ k : ℕ) : F) * y) y = y := by
    intro y
    simp only [Function.comp_apply]
    rw [mul_comm (((2 ^ k : ℕ) : F)) y, mul_assoc,
      mul_inv_cancel₀ hchar, mul_one]
  calc p.map ((fun y => y * (((2 ^ k : ℕ) : F))⁻¹) ∘
        fun y => ((2 ^ k : ℕ) : F) * y)
      = p.map id := List.map_congr_left fun y _ => hid y
    _ = p := List.map_id p

/-- C3 witness: the round trip over `ZMod 17` with the primitive 4th root
of unity `4`, on the polynomial `[1,2,3,4]`. -/
theorem fft_ifft_roundtrip_witness :
    fp_fft_poly (fun j => if j = 2 then (4 : ZMod 17) else 1)
        (fp_ifft_poly (fun j => if j = 2 then (4 : ZMod 17) else 1)
          [1, 2, 3, 4]) = [1, 2, 3, 4] :=
  fft_ifft_roundtrip (fun j => if j = 2 then (4 : ZMod 17) else 1)
    [1, 2, 3, 4] 2 rfl (by decide) (by decide) (by decide)

end Fft

end Nockchain
